import Mathlib

/-!
Shallow embedding of the change-detection and dissemination core of the
`bridge` repository (src/bridge/cache.py, src/bridge/__init__.py,
src/bridge/client.py, src/bridge/server.py), together with proofs that
settle the frozen claims about its specification.

Machine integers are modelled as `Int` (Python integers are unbounded),
strings as `String`, JSON values as an explicit inductive, fallible code
as `Except`, and the stateful parts of a synchronization cycle as explicit
state passing.
-/

namespace Bridge

/-- JSON values as produced by Python's `json.load` for the cache file.
Python maps JSON `true`/`false` to `bool`, which is a subclass of `int`;
the subtyping is modelled at the points where the source performs an
`isinstance(..., int)` check (see `as_py_int`).  JSON floats never occur
in the inputs the claims are about and are omitted. -/
inductive JValue where
  | null
  | bool (b : Bool)
  | int (n : Int)
  | str (s : String)
  | arr (items : List JValue)
  | obj (fields : List (String × JValue))

/-- Lookup in a Python dict built left-to-right from a field list: a later
binding of the same key overrides an earlier one, exactly as repeated
`dict` insertion does. -/
def dict_last_fields : List (String × JValue) → String → Option JValue
  | [], _ => none
  | p :: rest, k =>
    match dict_last_fields rest k with
    | some v => some v
    | none => if p.1 = k then some p.2 else none

/-- Subscript access `item[k]` / containment `k in item` for a parsed JSON
object; `none` both for a missing key and for a non-object, which in the
source raises (`KeyError`/`TypeError`) just as the missing-key case raises
`AssertionError` — all are load failures. -/
def JValue.getKey : JValue → String → Option JValue
  | .obj fields, k => dict_last_fields fields k
  | _, _ => none

/-- `CacheEntry` from cache.py: `(uid, hash, rev_id)`. `rev_id` is a plain
Python `int`, hence `Int`. -/
structure CacheEntry where
  uid : String
  hash : String
  rev_id : Int
deriving DecidableEq, Repr

/-- Load failure of the cache file.  The source raises `AssertionError` from
the `assert` statements in `load_cache`; the spec calls this failure mode
`MalformedCacheError`. -/
inductive CacheLoadError where
  | malformed
deriving DecidableEq, Repr

/-- Python's `isinstance(x, int)` on a parsed JSON value: integers qualify,
and so do booleans (`bool` is a subclass of `int`, `True == 1`,
`False == 0`).  Everything else (strings, lists, objects, null) does not. -/
def as_py_int : JValue → Option Int
  | .int n => some n
  | .bool b => some (if b then 1 else 0)
  | _ => none

/-- Python's `isinstance(x, str)` on a parsed JSON value. -/
def as_py_str : JValue → Option String
  | .str s => some s
  | _ => none

/-- One iteration of the loop in `load_cache`: the three `assert` statements
(`"uid" in item and isinstance(item["uid"], str)`, likewise for `hash` and
`rev_id`) followed by construction of the `CacheEntry`. -/
def load_entry (item : JValue) : Except CacheLoadError CacheEntry :=
  match (item.getKey "uid").bind as_py_str,
        (item.getKey "hash").bind as_py_str,
        (item.getKey "rev_id").bind as_py_int with
  | some uid, some hash, some rev_id => .ok (CacheEntry.mk uid hash rev_id)
  | _, _, _ => .error .malformed

/-- The `for item in raw` loop of `load_cache`: entries are accumulated in
file order and the first failing item aborts the whole load. -/
def load_entries : List JValue → Except CacheLoadError (List CacheEntry)
  | [] => .ok []
  | item :: rest =>
    match load_entry item with
    | .error e => .error e
    | .ok entry =>
      match load_entries rest with
      | .error e => .error e
      | .ok entries => .ok (entry :: entries)

/-- `load_cache` from cache.py.  The persisted file is modelled as
`Option JValue`: `none` when `os.path.isfile` is false (missing file,
returns `[]`), otherwise the parsed JSON document.  A non-list document
fails the `assert isinstance(raw, list)`. -/
def load_cache (file : Option JValue) : Except CacheLoadError (List CacheEntry) :=
  match file with
  | none => .ok []
  | some raw =>
    match raw with
    | .arr items => load_entries items
    | _ => .error .malformed

/-- `write_cache` from cache.py: the JSON document produced by
`json.dump(list(map(dataclasses.asdict, entries)))` — a list of objects in
entry order with the dataclass field order `uid`, `hash`, `rev_id`. -/
def write_cache (entries : List CacheEntry) : JValue :=
  .arr (entries.map fun e =>
    .obj [("uid", .str e.uid), ("hash", .str e.hash), ("rev_id", .int e.rev_id)])

/-- Model of an `Event` (event.py): the stable `uid` plus the rest of the
record's content.  The source `Event` carries many structured fields
(status, organizer, attendees, schedule, free text); the core under
verification treats them only through the deterministic serialization fed
to the digest, so they are abstracted into one opaque `content` string. -/
structure Event where
  uid : String
  content : String
deriving DecidableEq, Repr

/-- Default used to model Python list indexing `events[i]` totally; every
index the source produces is in range, so the default is never reached on
the executed paths. -/
def defaultEvent : Event := Event.mk "" ""

/-- `hash_event` from event.py digests the deterministic JSON serialization
of the event with BLAKE2b and base64-encodes the digest.  The digest
algorithm is opaque to every claim (only equality of fingerprints matters),
so it is modelled as an injective deterministic encoding of the serialized
record. -/
def hash_event (e : Event) : String :=
  "b2b:" ++ e.uid ++ ":" ++ e.content

/-- `event.to_dict()`: the JSON object fields of the serialized event.  The
concrete content fields are abstracted into the opaque `content` field, as
in `Event`.  Note there is no `rev_id` field among them. -/
def event_to_dict (e : Event) : List (String × JValue) :=
  [("uid", .str e.uid), ("content", .str e.content)]

/-- `_PartialCacheEntry` from cache.py (duplicated in __init__.py): the
`(hash, rev_id)` projection of a cache entry, used as dict value when
indexing by uid. -/
structure PartialCacheEntry where
  hash : String
  rev_id : Int
deriving DecidableEq, Repr

/-- Python `dict(map(lambda entry: (entry.uid, ...), entries))`: built
left-to-right, so a later entry with the same uid overrides an earlier
one.  Returns the winning (last) entry for a uid. -/
def dict_last_entries : List CacheEntry → String → Option CacheEntry
  | [], _ => none
  | e :: rest, u =>
    match dict_last_entries rest u with
    | some v => some v
    | none => if e.uid = u then some e else none

/-- The uid-indexed view of a loaded cache used by both the classifier
(`uid_to_partial` in `load_sort_events`, `entry_uid_to_partial` in
`fetch_push_events`) and the updater: the last entry for a uid wins. -/
def cacheLookup (entries : List CacheEntry) (u : String) : Option PartialCacheEntry :=
  (dict_last_entries entries u).map fun e => PartialCacheEntry.mk e.hash e.rev_id

/-- Resolved revision of a uid in a cache generation: the `rev_id` of the
entry the source's dict lookups see (the last one in file order). -/
def revOf (entries : List CacheEntry) (u : String) : Option Int :=
  (cacheLookup entries u).map fun p => p.rev_id

/-- The three-way decision of the classification loop body in
`load_sort_events`: uid absent from the dict → new; present with a
different hash → updated; present with the same hash → unchanged. -/
inductive EventClass where
  | isNew
  | isUpdated
  | isUnchanged
deriving DecidableEq, Repr

/-- Classification decision for one observed event. -/
def classify_event (lookup : String → Option PartialCacheEntry) (e : Event) : EventClass :=
  match lookup e.uid with
  | none => .isNew
  | some p => if p.hash = hash_event e then .isUnchanged else .isUpdated

/-- The `for i, event in enumerate(events)` loop of `load_sort_events`,
carrying the running index: each index is appended to exactly one of the
three lists, in input order. -/
def classify_from (lookup : String → Option PartialCacheEntry) :
    Nat → List Event → List Nat × List Nat × List Nat
  | _, [] => ([], [], [])
  | i, e :: rest =>
    let r := classify_from lookup (i + 1) rest
    match classify_event lookup e with
    | .isNew => (i :: r.1, r.2.1, r.2.2)
    | .isUpdated => (r.1, i :: r.2.1, r.2.2)
    | .isUnchanged => (r.1, r.2.1, i :: r.2.2)

/-- `EventSort` from cache.py. -/
structure EventSort where
  new : List Nat
  updated : List Nat
  unchanged : List Nat
  hashes : List String
  entries : List CacheEntry
deriving DecidableEq, Repr

/-- `load_sort_events` from cache.py, with the cache file already loaded
into `entries` (`load_cache` is modelled separately): compute every hash
once, build the last-wins uid dict, and classify each index. -/
def load_sort_events (entries : List CacheEntry) (events : List Event) : EventSort :=
  let r := classify_from (cacheLookup entries) 0 events
  EventSort.mk r.1 r.2.1 r.2.2 (events.map hash_event) entries

/-- Python `x in it` where `it` is an iterator (here the lazy
`map(..., itertools.chain(...))` in `update_cache`): scans the iterator,
consuming every element up to and including the first match; on a miss the
iterator is exhausted.  Returns the verdict and the remaining iterator. -/
def iter_contains (x : String) : List String → Bool × List String
  | [] => (false, [])
  | y :: rest => if y = x then (true, rest) else iter_contains x rest

/-- The `filter(lambda entry: entry.uid not in new_and_updated_uids, ...)`
of `update_cache`, where `new_and_updated_uids` is a shared iterator: each
membership test consumes it, so later tests only see what earlier tests
left over. -/
def carry_over : List String → List CacheEntry → List CacheEntry
  | _, [] => []
  | gen, e :: rest =>
    let r := iter_contains e.uid gen
    if r.1 then carry_over r.2 rest else e :: carry_over r.2 rest

/-- `update_cache` from cache.py, given a classification: build the (lazy,
single-use) iterator of new-and-updated uids, the last-wins uid→entry
dict, carry over the entries the iterator-consuming filter keeps, then
append a fresh revision-0 entry per new index and a revision+1 entry per
updated index.  `events[i]` / `sort.hashes[i]` indexing is total via
defaults that the classifier-produced indices never reach. -/
def update_cache_next (events : List Event) (sort : EventSort) : List CacheEntry :=
  let new_and_updated_uids : List String :=
    (sort.new ++ sort.updated).map fun i => (events.getD i defaultEvent).uid
  let uid_to_entry : String → Option CacheEntry :=
    dict_last_entries sort.entries
  let carried := carry_over new_and_updated_uids sort.entries
  let news := sort.new.map fun i =>
    CacheEntry.mk (events.getD i defaultEvent).uid (sort.hashes.getD i "") 0
  let upds := sort.updated.map fun i =>
    let old_rev :=
      match uid_to_entry (events.getD i defaultEvent).uid with
      | some old => old.rev_id
      | none => 0
    CacheEntry.mk (events.getD i defaultEvent).uid (sort.hashes.getD i "") (old_rev + 1)
  carried ++ news ++ upds

/-- `update_cache(path, events)` on its `sort=None` path (the only call in
the repository, from `_update_clients`): recompute the classification then
derive and write the next generation. -/
def update_cache (entries : List CacheEntry) (events : List Event) : List CacheEntry :=
  update_cache_next events (load_sort_events entries events)

/-- `ClientSection` from config.py: one configured downstream receiver. -/
structure ClientSection where
  name : String
  host : String
  port : Int
deriving DecidableEq, Repr

/-- What one receiver does with one notification request: the connection
fails (`aiohttp.ClientConnectionError`), or a response with some status
code arrives.  These are exactly the outcomes the fan-out loops handle. -/
inductive ReceiverBehavior where
  | connectionFailure
  | status (code : Int)
deriving DecidableEq, Repr

/-- Per-receiver outcome of one delivery attempt, as logged by the fan-out
loops: unreachable (connection failure), rejected (status outside the
expected set `{200, 201}`), created (200) or updated (201). -/
inductive PushOutcome where
  | unreachable
  | rejected (code : Int)
  | created
  | updated
deriving DecidableEq, Repr

/-- `_EXPECTED_PUSH_RESPONSES = frozenset([200, 201])`. -/
def expected_push_response (code : Int) : Bool :=
  code = 200 || code = 201

/-- The body of the loop in `push_event` (__init__.py) and equally in
`_push_event_to_client` (client.py): catch a connection failure and
continue; log an unexpected status and continue; otherwise log created
(200) or updated (201). -/
def push_outcome (b : ReceiverBehavior) : PushOutcome :=
  match b with
  | .connectionFailure => .unreachable
  | .status code =>
    if !(expected_push_response code) then .rejected code
    else if code = 200 then .created
    else .updated

/-- One notification request: the receiver it is sent to and its JSON body. -/
structure PushRequest where
  client : ClientSection
  body : JValue

/-- The JSON body built by `push_event` (__init__.py): the serialized event
with `se_dict["rev_id"] = rev_id` added — a fresh key, appended after the
event's own fields. -/
def push_event_body (e : Event) (rev_id : Int) : JValue :=
  .obj (event_to_dict e ++ [("rev_id", .int rev_id)])

/-- The `for client in config.clients` loop of `push_event` (__init__.py):
one request per configured client in order; every failure arm ends in
`continue`, so each client is attempted no matter what the previous ones
did.  `behavior` gives each receiver's reaction to its request. -/
def push_event_run (e : Event) (rev_id : Int)
    (behavior : ClientSection → ReceiverBehavior) :
    List ClientSection → List (PushRequest × PushOutcome)
  | [] => []
  | c :: rest =>
    (PushRequest.mk c (push_event_body e rev_id), push_outcome (behavior c)) ::
      push_event_run e rev_id behavior rest

/-- The classification loop of `fetch_push_events` (__init__.py, lines
182–191): index `i` is skipped exactly when its uid is in the cache dict
with an identical hash, and collected into `to_push` otherwise. -/
def to_push_from (lookup : String → Option PartialCacheEntry) :
    Nat → List Event → List Nat
  | _, [] => []
  | i, e :: rest =>
    let r := to_push_from lookup (i + 1) rest
    match lookup e.uid with
    | some p => if p.hash = hash_event e then r else i :: r
    | none => i :: r

/-- Revision resolution of `fetch_push_events`, used identically at the
push site (lines 198–201) and in `_derive_entry` (lines 220–224): cached
uid → previous revision + 1, fresh uid → 0. -/
def resolve_rev (lookup : String → Option PartialCacheEntry) (e : Event) : Int :=
  match lookup e.uid with
  | some p => p.rev_id + 1
  | none => 0

/-- Membership in the `frozenset` `updated_event_uids` of
`fetch_push_events`.  Unlike the iterator in `update_cache`, a frozenset
supports repeated membership tests. -/
def mem_str (u : String) : List String → Bool
  | [] => false
  | v :: rest => if v = u then true else mem_str u rest

/-- `_derive_entry` from `fetch_push_events`: a fresh entry from the
observed event, with the resolved revision. -/
def derive_entry (lookup : String → Option PartialCacheEntry)
    (events : List Event) (i : Nat) : CacheEntry :=
  let e := events.getD i defaultEvent
  CacheEntry.mk e.uid (hash_event e) (resolve_rev lookup e)

/-- The cache-update tail of `fetch_push_events` (lines 206–230): carry
over every loaded entry whose uid is not in the frozenset of pushed uids,
then append one derived entry per pushed index, and write the result. -/
def fetch_cycle_next (entries : List CacheEntry) (events : List Event) : List CacheEntry :=
  let lookup := cacheLookup entries
  let to_push := to_push_from lookup 0 events
  let updated_event_uids : List String :=
    to_push.map fun i => (events.getD i defaultEvent).uid
  entries.filter (fun e => !(mem_str e.uid updated_event_uids)) ++
    to_push.map (derive_entry lookup events)

/-- The classify/fan-out/update portion of `fetch_push_events`, with the
cache already loaded and the observation already complete: the list of
pushed indices, each with the fan-out it triggered, together with the next
cache generation that gets written. -/
def fetch_push_cycle (entries : List CacheEntry) (events : List Event)
    (clients : List ClientSection) (behavior : ClientSection → ReceiverBehavior) :
    List (Nat × List (PushRequest × PushOutcome)) × List CacheEntry :=
  let lookup := cacheLookup entries
  let to_push := to_push_from lookup 0 events
  let pushes := to_push.map fun i =>
    let e := events.getD i defaultEvent
    (i, push_event_run e (resolve_rev lookup e) behavior clients)
  (pushes, fetch_cycle_next entries events)

/-- The `for client in config.clients` loop of `push_event_to_clients`
(client.py): like `push_event_run`, but the body is the bare
`event.to_dict()` serialization — no revision field is added on this
path. -/
def push_to_clients_run (e : Event) (behavior : ClientSection → ReceiverBehavior) :
    List ClientSection → List (PushRequest × PushOutcome)
  | [] => []
  | c :: rest =>
    (PushRequest.mk c (.obj (event_to_dict e)), push_outcome (behavior c)) ::
      push_to_clients_run e behavior rest

/-- The cache/dissemination portion of `_update_clients` (server.py) after
a successful single-event extraction: classify the singleton batch, set
`duplicate` when `sort.updated` is empty, update the cache via
`update_cache(path, [event])`, and push to every client via
`push_event_to_clients` only when not a duplicate. -/
def update_clients_cycle (entries : List CacheEntry) (event : Event)
    (clients : List ClientSection) (behavior : ClientSection → ReceiverBehavior) :
    List (PushRequest × PushOutcome) × List CacheEntry :=
  let sort := load_sort_events entries [event]
  let duplicate := sort.updated.length = 0
  let next := update_cache entries [event]
  (if duplicate then [] else push_to_clients_run event behavior clients, next)

/-- State visible to one full synchronization cycle: whether the cache
mutual-exclusion lock is held, and the persisted cache file. -/
structure CycleState where
  lockHeld : Bool
  cacheFile : Option JValue

/-- Result of the external observation (`fetch_events`): the site observer
either fails (`ObservationError`: network, auth or parse failure, modelled
as one constructor) or yields the observed batch. -/
inductive ObsResult where
  | failure
  | ok (events : List Event)

/-- How one invocation of `fetch_push_events` terminates: an exception
propagates to the caller, or the function runs to completion. -/
inductive CycleOutcome where
  | raised
  | completed
deriving DecidableEq, Repr

/-- Control flow of `fetch_push_events` (__init__.py, lines 154–231) with
respect to the lock and the cache file: acquire `ctx.cache_lock` (line
161), observe (line 163), load the cache (line 171), classify, fan out,
derive and write (line 230), release the lock (line 231).  There is no
`try`/`finally`, so an exception raised by the observation or by the cache
load propagates before the release on line 231 is reached. -/
def fetch_push_events_run (st : CycleState) (obs : ObsResult) :
    CycleState × CycleOutcome :=
  let locked := CycleState.mk true st.cacheFile
  match obs with
  | .failure => (locked, .raised)
  | .ok events =>
    match load_cache st.cacheFile with
    | .error _ => (locked, .raised)
    | .ok entries =>
      (CycleState.mk false (some (write_cache (fetch_cycle_next entries events))),
       .completed)

/-- One synchronization cycle touching the cache: a periodic full-batch
cycle (`fetch_push_events`) or a single-event reconciliation
(`_update_clients`, which calls `update_cache` on a batch of size one). -/
inductive Cycle where
  | full (events : List Event)
  | single (event : Event)

/-- The observed batch of a cycle. -/
def Cycle.batch : Cycle → List Event
  | .full events => events
  | .single event => [event]

/-- The cache generation a cycle leaves behind, given the one it found. -/
def cycle_step (entries : List CacheEntry) : Cycle → List CacheEntry
  | .full events => fetch_cycle_next entries events
  | .single event => update_cache entries [event]

/-- The cache generation after a sequence of cycles starting from the empty
cache (no cache file yet: `load_cache` of a missing file is `[]`). -/
def run_cycles (cycles : List Cycle) : List CacheEntry :=
  cycles.foldl cycle_step []

/-- Typing of one persisted entry as the claim states the expected shape:
the required fields `uid`, `hash`, `rev_id` present, the first two
strings, the revision a JSON integer.  This definition follows the spec's
words (spec §6, claim C6), to be compared with what `load_cache` accepts. -/
def claim_item_typed (item : JValue) : Bool :=
  (match item.getKey "uid" with | some (.str _) => true | _ => false) &&
  (match item.getKey "hash" with | some (.str _) => true | _ => false) &&
  (match item.getKey "rev_id" with | some (.int _) => true | _ => false)

/-- Shape of a persisted cache document as the claim states it: a list of
entries, each typed per `claim_item_typed`.  From the spec's words. -/
def claim_shape : JValue → Bool
  | .arr items => items.all claim_item_typed
  | _ => false

/-- Typing of one persisted entry as the source accepts it: like
`claim_item_typed`, except that the `isinstance(..., int)` check on
`rev_id` also accepts booleans (Python `bool` is a subclass of `int`). -/
def accepted_item (item : JValue) : Bool :=
  ((item.getKey "uid").bind as_py_str).isSome &&
  ((item.getKey "hash").bind as_py_str).isSome &&
  ((item.getKey "rev_id").bind as_py_int).isSome

/-- Shape of a persisted cache document as the source accepts it. -/
def accepted_shape : JValue → Bool
  | .arr items => items.all accepted_item
  | _ => false

/-! Helper lemmas about the last-wins dict view of a cache generation. -/

theorem dict_last_entries_append (l1 l2 : List CacheEntry) (u : String) :
    dict_last_entries (l1 ++ l2) u =
      match dict_last_entries l2 u with
      | some e => some e
      | none => dict_last_entries l1 u := by
  induction l1 with
  | nil =>
    cases h : dict_last_entries l2 u <;> simp [dict_last_entries, h]
  | cons e rest ih =>
    show dict_last_entries (e :: (rest ++ l2)) u = _
    rw [dict_last_entries, ih]
    cases h : dict_last_entries l2 u <;> rfl

theorem dict_last_entries_eq_none_iff (l : List CacheEntry) (u : String) :
    dict_last_entries l u = none ↔ ∀ e ∈ l, e.uid ≠ u := by
  induction l with
  | nil => simp [dict_last_entries]
  | cons e rest ih =>
    constructor
    · intro h d hd
      cases hr : dict_last_entries rest u with
      | some v => simp [dict_last_entries, hr] at h
      | none =>
        by_cases he : e.uid = u
        · simp [dict_last_entries, hr, he] at h
        · rcases List.mem_cons.mp hd with hde | hde
          · exact hde ▸ he
          · exact ih.mp hr d hde
    · intro h
      have hrest : dict_last_entries rest u = none :=
        ih.mpr fun d hd => h d (List.mem_cons_of_mem e hd)
      have hhead : e.uid ≠ u := h e (List.mem_cons_self e rest)
      simp [dict_last_entries, hrest, hhead]

theorem dict_last_entries_mem :
    ∀ (l : List CacheEntry) (u : String) (c : CacheEntry),
      dict_last_entries l u = some c → c ∈ l ∧ c.uid = u := by
  intro l
  induction l with
  | nil => intro u c h; simp [dict_last_entries] at h
  | cons d rest ih =>
    intro u c h
    cases hr : dict_last_entries rest u with
    | some v =>
      have hvc : v = c := by simp [dict_last_entries, hr] at h; exact h
      subst hvc
      obtain ⟨hm, hu⟩ := ih u v hr
      exact ⟨List.mem_cons_of_mem d hm, hu⟩
    | none =>
      by_cases hd : d.uid = u
      · have hdc : d = c := by simp [dict_last_entries, hr, hd] at h; exact h
        subst hdc
        exact ⟨List.mem_cons_self d rest, hd⟩
      · simp [dict_last_entries, hr, hd] at h

theorem dict_last_entries_isSome_iff (l : List CacheEntry) (u : String) :
    (dict_last_entries l u).isSome ↔ ∃ e ∈ l, e.uid = u := by
  cases h : dict_last_entries l u with
  | some c =>
    obtain ⟨hm, hu⟩ := dict_last_entries_mem l u c h
    simpa using ⟨c, hm, hu⟩
  | none =>
    constructor
    · intro hs; simp at hs
    · rintro ⟨e, hm, hu⟩
      exact absurd hu ((dict_last_entries_eq_none_iff l u).mp h e hm)

theorem dict_last_entries_cons_of_ne {e : CacheEntry} {u : String}
    (l : List CacheEntry) (h : e.uid ≠ u) :
    dict_last_entries (e :: l) u = dict_last_entries l u := by
  rw [dict_last_entries]
  cases hr : dict_last_entries l u <;> simp [h]

theorem dict_last_entries_filter (l : List CacheEntry) (u : String)
    (q : CacheEntry → Bool) (h : ∀ e ∈ l, e.uid = u → q e = true) :
    dict_last_entries (l.filter q) u = dict_last_entries l u := by
  induction l with
  | nil => simp
  | cons e rest ih =>
    have hrest : dict_last_entries (rest.filter q) u = dict_last_entries rest u :=
      ih fun d hd => h d (List.mem_cons_of_mem e hd)
    by_cases hq : q e = true
    · rw [List.filter_cons_of_pos hq, dict_last_entries, hrest, dict_last_entries]
    · have hne : e.uid ≠ u := fun habs => hq (h e (List.mem_cons_self e rest) habs)
      rw [List.filter_cons_of_neg (by simpa using hq), hrest,
        dict_last_entries_cons_of_ne rest hne]

theorem mem_str_iff (u : String) (l : List String) :
    mem_str u l = true ↔ u ∈ l := by
  induction l with
  | nil => simp [mem_str]
  | cons v rest ih =>
    by_cases h : v = u
    · simp [mem_str, h]
    · have hvu : ¬ u = v := fun habs => h habs.symm
      simp [mem_str, h, ih, hvu]

theorem exists_lt_succ_iff {n : Nat} {P : Nat → Prop} :
    (∃ k, k < n + 1 ∧ P k) ↔ P 0 ∨ ∃ k, k < n ∧ P (k + 1) := by
  constructor
  · rintro ⟨k, hk, hp⟩
    cases k with
    | zero => exact Or.inl hp
    | succ k => exact Or.inr ⟨k, by omega, hp⟩
  · rintro (h | ⟨k, hk, hp⟩)
    · exact ⟨0, by omega, h⟩
    · exact ⟨k + 1, by omega, hp⟩

theorem mem_cons_char_hit {r : List Nat} {n i j : Nat} {Q : Nat → Prop}
    (hr : j ∈ r ↔ ∃ k, k < n ∧ j = i + 1 + k ∧ Q (k + 1)) (h0 : Q 0) :
    (j ∈ i :: r) ↔ ∃ k, k < n + 1 ∧ j = i + k ∧ Q k := by
  rw [List.mem_cons, hr, exists_lt_succ_iff]
  constructor
  · rintro (h | ⟨k, hk, hjk, hq⟩)
    · exact Or.inl ⟨by omega, h0⟩
    · exact Or.inr ⟨k, hk, by omega, hq⟩
  · rintro (⟨hj, _⟩ | ⟨k, hk, hjk, hq⟩)
    · exact Or.inl (by omega)
    · exact Or.inr ⟨k, hk, by omega, hq⟩

theorem mem_cons_char_miss {r : List Nat} {n i j : Nat} {Q : Nat → Prop}
    (hr : j ∈ r ↔ ∃ k, k < n ∧ j = i + 1 + k ∧ Q (k + 1)) (h0 : ¬ Q 0) :
    (j ∈ r) ↔ ∃ k, k < n + 1 ∧ j = i + k ∧ Q k := by
  rw [hr, exists_lt_succ_iff]
  constructor
  · rintro ⟨k, hk, hjk, hq⟩
    exact Or.inr ⟨k, hk, by omega, hq⟩
  · rintro (⟨hj, hq⟩ | ⟨k, hk, hjk, hq⟩)
    · exact absurd hq h0
    · exact ⟨k, hk, by omega, hq⟩

theorem classify_from_mem (lookup : String → Option PartialCacheEntry) :
    ∀ (evs : List Event) (i j : Nat),
      (j ∈ (classify_from lookup i evs).1 ↔
        ∃ k, k < evs.length ∧ j = i + k ∧
          classify_event lookup (evs.getD k defaultEvent) = .isNew) ∧
      (j ∈ (classify_from lookup i evs).2.1 ↔
        ∃ k, k < evs.length ∧ j = i + k ∧
          classify_event lookup (evs.getD k defaultEvent) = .isUpdated) ∧
      (j ∈ (classify_from lookup i evs).2.2 ↔
        ∃ k, k < evs.length ∧ j = i + k ∧
          classify_event lookup (evs.getD k defaultEvent) = .isUnchanged) := by
  intro evs
  induction evs with
  | nil => intro i j; simp [classify_from]
  | cons e rest ih =>
    intro i j
    obtain ⟨ih1, ih2, ih3⟩ := ih (i + 1) j
    cases hce : classify_event lookup e with
    | isNew =>
      refine ⟨?_, ?_, ?_⟩ <;> simp only [classify_from, hce, List.length_cons]
      · exact mem_cons_char_hit ih1 hce
      · exact mem_cons_char_miss ih2 (by simp [hce])
      · exact mem_cons_char_miss ih3 (by simp [hce])
    | isUpdated =>
      refine ⟨?_, ?_, ?_⟩ <;> simp only [classify_from, hce, List.length_cons]
      · exact mem_cons_char_miss ih1 (by simp [hce])
      · exact mem_cons_char_hit ih2 hce
      · exact mem_cons_char_miss ih3 (by simp [hce])
    | isUnchanged =>
      refine ⟨?_, ?_, ?_⟩ <;> simp only [classify_from, hce, List.length_cons]
      · exact mem_cons_char_miss ih1 (by simp [hce])
      · exact mem_cons_char_miss ih2 (by simp [hce])
      · exact mem_cons_char_hit ih3 hce

theorem classify_from_lengths (lookup : String → Option PartialCacheEntry) :
    ∀ (evs : List Event) (i : Nat),
      (classify_from lookup i evs).1.length + (classify_from lookup i evs).2.1.length +
        (classify_from lookup i evs).2.2.length = evs.length := by
  intro evs
  induction evs with
  | nil => intro i; simp [classify_from]
  | cons e rest ih =>
    intro i
    have := ih (i + 1)
    cases hce : classify_event lookup e <;>
      simp [classify_from, hce, this] <;> omega

theorem to_push_from_mem (lookup : String → Option PartialCacheEntry) :
    ∀ (evs : List Event) (i j : Nat),
      j ∈ to_push_from lookup i evs ↔
        ∃ k, k < evs.length ∧ j = i + k ∧
          classify_event lookup (evs.getD k defaultEvent) ≠ .isUnchanged := by
  intro evs
  induction evs with
  | nil => intro i j; simp [to_push_from]
  | cons e rest ih =>
    intro i j
    have ihj := ih (i + 1) j
    cases hlu : lookup e.uid with
    | none =>
      simp only [to_push_from, hlu, List.length_cons]
      exact mem_cons_char_hit ihj (by simp [classify_event, hlu])
    | some p =>
      by_cases hh : p.hash = hash_event e
      · simp only [to_push_from, hlu, if_pos hh, List.length_cons]
        exact mem_cons_char_miss ihj (by simp [classify_event, hlu, hh])
      · simp only [to_push_from, hlu, if_neg hh, List.length_cons]
        exact mem_cons_char_hit ihj (by simp [classify_event, hlu, hh])

/-! Helper lemmas about the fan-out loops. -/

theorem push_event_run_clients (e : Event) (rev_id : Int)
    (behavior : ClientSection → ReceiverBehavior) (clients : List ClientSection) :
    (push_event_run e rev_id behavior clients).map (fun pr => pr.1.client) = clients := by
  induction clients with
  | nil => rfl
  | cons c rest ih => simp [push_event_run, ih]

theorem push_event_run_bodies (e : Event) (rev_id : Int)
    (behavior : ClientSection → ReceiverBehavior) (clients : List ClientSection) :
    (push_event_run e rev_id behavior clients).map (fun pr => pr.1.body) =
      clients.map fun _ => push_event_body e rev_id := by
  induction clients with
  | nil => rfl
  | cons c rest ih => simp [push_event_run, ih]

theorem push_to_clients_run_clients (e : Event)
    (behavior : ClientSection → ReceiverBehavior) (clients : List ClientSection) :
    (push_to_clients_run e behavior clients).map (fun pr => pr.1.client) = clients := by
  induction clients with
  | nil => rfl
  | cons c rest ih => simp [push_to_clients_run, ih]

theorem push_to_clients_run_bodies (e : Event)
    (behavior : ClientSection → ReceiverBehavior) (clients : List ClientSection) :
    (push_to_clients_run e behavior clients).map (fun pr => pr.1.body) =
      clients.map fun _ => JValue.obj (event_to_dict e) := by
  induction clients with
  | nil => rfl
  | cons c rest ih => simp [push_to_clients_run, ih]

/-! Helper lemmas about the iterator-consuming carry-over of `update_cache`. -/

theorem carry_over_nil_gen (l : List CacheEntry) : carry_over [] l = l := by
  induction l with
  | nil => rfl
  | cons e rest ih => simp [carry_over, iter_contains, ih]

theorem carry_over_single_gen (x : String) (e : CacheEntry) (l : List CacheEntry) :
    carry_over [x] (e :: l) = if x = e.uid then l else e :: l := by
  by_cases h : x = e.uid <;>
    simp [carry_over, iter_contains, h, carry_over_nil_gen]

theorem carry_over_single_id (x : String) (entries : List CacheEntry)
    (h : ∀ e ∈ entries, e.uid ≠ x) : carry_over [x] entries = entries := by
  cases entries with
  | nil => rfl
  | cons e rest =>
    rw [carry_over_single_gen, if_neg]
    intro habs
    exact h e (List.mem_cons_self e rest) habs.symm

theorem carry_over_single_dict (x : String) (entries : List CacheEntry)
    (u : String) (hxu : x ≠ u) :
    dict_last_entries (carry_over [x] entries) u = dict_last_entries entries u := by
  cases entries with
  | nil => rfl
  | cons e rest =>
    rw [carry_over_single_gen]
    by_cases h : x = e.uid
    · rw [if_pos h, dict_last_entries_cons_of_ne rest (h ▸ hxu)]
    · rw [if_neg h]

theorem dict_last_entries_singleton (e : CacheEntry) (u : String) :
    dict_last_entries [e] u = if e.uid = u then some e else none := rfl

theorem cacheLookup_eq_none_iff (entries : List CacheEntry) (u : String) :
    cacheLookup entries u = none ↔ ∀ e ∈ entries, e.uid ≠ u := by
  rw [cacheLookup, Option.map_eq_none']
  exact dict_last_entries_eq_none_iff entries u

/-! Per-cycle effect on the resolved revision of an arbitrary uid. -/

theorem update_cache_single_rev (entries : List CacheEntry) (event : Event) (u : String) :
    revOf (update_cache entries [event]) u =
      match cacheLookup entries u with
      | none => if event.uid = u then some 0 else none
      | some p =>
        some (if event.uid = u ∧ hash_event event ≠ p.hash then p.rev_id + 1
              else p.rev_id) := by
  cases hdl : dict_last_entries entries event.uid with
  | none =>
    have hlu : cacheLookup entries event.uid = none := by simp [cacheLookup, hdl]
    have hsort : load_sort_events entries [event] =
        EventSort.mk [0] [] [] [hash_event event] entries := by
      simp [load_sort_events, classify_from, classify_event, hlu]
    have hno : ∀ e ∈ entries, e.uid ≠ event.uid :=
      (dict_last_entries_eq_none_iff entries event.uid).mp hdl
    have hnext : update_cache entries [event] =
        entries ++ [CacheEntry.mk event.uid (hash_event event) 0] := by
      rw [update_cache, hsort]
      simp [update_cache_next, carry_over_single_id event.uid entries hno]
    rw [hnext, revOf, cacheLookup, dict_last_entries_append]
    by_cases hu : event.uid = u
    · subst hu
      rw [hlu]
      simp [dict_last_entries_singleton]
    · rw [dict_last_entries_singleton, if_neg hu]
      cases hcl : dict_last_entries entries u with
      | none => simp [cacheLookup, hcl, hu]
      | some c => simp [cacheLookup, hcl, hu]
  | some c =>
    have hlu : cacheLookup entries event.uid = some (PartialCacheEntry.mk c.hash c.rev_id) := by
      simp [cacheLookup, hdl]
    by_cases hh : c.hash = hash_event event
    · -- unchanged: the cache generation is carried over verbatim
      have hsort : load_sort_events entries [event] =
          EventSort.mk [] [] [0] [hash_event event] entries := by
        simp [load_sort_events, classify_from, classify_event, hlu, hh]
      have hnext : update_cache entries [event] = entries := by
        rw [update_cache, hsort]
        simp [update_cache_next, carry_over_nil_gen]
      rw [hnext]
      by_cases hu : event.uid = u
      · subst hu
        rw [hlu]
        simp [revOf, cacheLookup, hdl, hh]
      · cases hcl : dict_last_entries entries u with
        | none => simp [revOf, cacheLookup, hcl, hu]
        | some d => simp [revOf, cacheLookup, hcl, hu]
    · -- updated: the fresh entry with revision + 1 is appended last
      have hsort : load_sort_events entries [event] =
          EventSort.mk [] [0] [] [hash_event event] entries := by
        simp [load_sort_events, classify_from, classify_event, hlu, hh]
      have hnext : update_cache entries [event] =
          carry_over [event.uid] entries ++
            [CacheEntry.mk event.uid (hash_event event) (c.rev_id + 1)] := by
        rw [update_cache, hsort]
        simp [update_cache_next, hdl]
      rw [hnext, revOf, cacheLookup, dict_last_entries_append]
      by_cases hu : event.uid = u
      · subst hu
        rw [hlu]
        simp only [dict_last_entries_singleton, if_pos rfl]
        have hne : hash_event event ≠ c.hash := fun habs => hh habs.symm
        simp [hne]
      · rw [dict_last_entries_singleton, if_neg hu,
          carry_over_single_dict event.uid entries u hu]
        cases hcl : dict_last_entries entries u with
        | none => simp [cacheLookup, hcl, hu]
        | some d => simp [cacheLookup, hcl, hu]

theorem fetch_cycle_rev (entries : List CacheEntry) (events : List Event) (u : String) :
    revOf (fetch_cycle_next entries events) u =
      match cacheLookup entries u with
      | none => if ∃ e ∈ events, e.uid = u then some 0 else none
      | some p =>
        some (if ∃ e ∈ events, e.uid = u ∧ hash_event e ≠ p.hash then p.rev_id + 1
              else p.rev_id) := by
  have hpush : ∀ i, i ∈ to_push_from (cacheLookup entries) 0 events ↔
      (i < events.length ∧
        classify_event (cacheLookup entries) (events.getD i defaultEvent) ≠ .isUnchanged) := by
    intro i
    rw [to_push_from_mem]
    constructor
    · rintro ⟨k, hk, hik, hc⟩
      have hik2 : i = k := by omega
      subst hik2
      exact ⟨hk, hc⟩
    · rintro ⟨hi, hc⟩
      exact ⟨i, hi, by omega, hc⟩
  have hexists_push :
      (∃ i ∈ to_push_from (cacheLookup entries) 0 events,
          (events.getD i defaultEvent).uid = u) ↔
      (∃ e ∈ events, e.uid = u ∧
          classify_event (cacheLookup entries) e ≠ .isUnchanged) := by
    constructor
    · rintro ⟨i, hitp, hiu⟩
      obtain ⟨hi, hc⟩ := (hpush i).mp hitp
      exact ⟨events.getD i defaultEvent,
        by rw [List.getD_eq_getElem _ _ hi]; exact List.getElem_mem hi, hiu, hc⟩
    · rintro ⟨e, he, heu, hc⟩
      obtain ⟨k, hk, hke⟩ := List.mem_iff_getElem.mp he
      have hgd : events.getD k defaultEvent = e := by
        rw [List.getD_eq_getElem _ _ hk, hke]
      exact ⟨k, (hpush k).mpr ⟨hk, by rw [hgd]; exact hc⟩, by rw [hgd]; exact heu⟩
  have hfc : fetch_cycle_next entries events =
      entries.filter (fun e =>
        !(mem_str e.uid ((to_push_from (cacheLookup entries) 0 events).map
            fun i => (events.getD i defaultEvent).uid))) ++
        (to_push_from (cacheLookup entries) 0 events).map
          (derive_entry (cacheLookup entries) events) := rfl
  by_cases hex : ∃ i ∈ to_push_from (cacheLookup entries) 0 events,
      (events.getD i defaultEvent).uid = u
  · -- some occurrence of the uid is pushed: the derived entry wins
    obtain ⟨i1, hi1tp, hi1u⟩ := hex
    have hsome : (dict_last_entries
        ((to_push_from (cacheLookup entries) 0 events).map
          (derive_entry (cacheLookup entries) events)) u).isSome := by
      rw [dict_last_entries_isSome_iff]
      exact ⟨derive_entry (cacheLookup entries) events i1,
        List.mem_map.mpr ⟨i1, hi1tp, rfl⟩, hi1u⟩
    obtain ⟨d, hd⟩ := Option.isSome_iff_exists.mp hsome
    obtain ⟨hdmem, hdu⟩ := dict_last_entries_mem _ u d hd
    obtain ⟨i0, hi0tp, hi0d⟩ := List.mem_map.mp hdmem
    have hduid : (events.getD i0 defaultEvent).uid = u := by
      rw [← hdu, ← hi0d]; rfl
    have hdrev : d.rev_id =
        match cacheLookup entries u with
        | some p => p.rev_id + 1
        | none => 0 := by
      rw [← hi0d]
      show resolve_rev (cacheLookup entries) (events.getD i0 defaultEvent) = _
      rw [resolve_rev, hduid]
    rw [hfc, revOf, cacheLookup, dict_last_entries_append, hd]
    cases hdl2 : dict_last_entries entries u with
    | none =>
      have hcl : cacheLookup entries u = none := by simp [cacheLookup, hdl2]
      rw [hcl] at hdrev
      have hcond : ∃ e ∈ events, e.uid = u := by
        obtain ⟨e, he, heu, _⟩ := hexists_push.mp ⟨i1, hi1tp, hi1u⟩
        exact ⟨e, he, heu⟩
      simp [hcl, hcond, hdrev]
    | some c =>
      have hcl : cacheLookup entries u = some (PartialCacheEntry.mk c.hash c.rev_id) := by
        simp [cacheLookup, hdl2]
      rw [hcl] at hdrev
      have hcond : ∃ e ∈ events, e.uid = u ∧
          hash_event e ≠ (PartialCacheEntry.mk c.hash c.rev_id).hash := by
        obtain ⟨e, he, heu, hc⟩ := hexists_push.mp ⟨i1, hi1tp, hi1u⟩
        refine ⟨e, he, heu, ?_⟩
        intro habs
        apply hc
        have hch : c.hash = hash_event e := habs.symm
        simp [classify_event, heu, hcl, hch]
      simp [hcl, hcond, hdrev]
  · -- the uid is untouched this cycle: its entries are all carried over
    have hdnone : dict_last_entries
        ((to_push_from (cacheLookup entries) 0 events).map
          (derive_entry (cacheLookup entries) events)) u = none := by
      cases h : dict_last_entries
          ((to_push_from (cacheLookup entries) 0 events).map
            (derive_entry (cacheLookup entries) events)) u with
      | none => rfl
      | some d =>
        exfalso
        obtain ⟨hdmem, hdu⟩ := dict_last_entries_mem _ u d h
        obtain ⟨i0, hi0tp, hi0d⟩ := List.mem_map.mp hdmem
        exact hex ⟨i0, hi0tp, by rw [← hi0d] at hdu; exact hdu⟩
    have hfilter : dict_last_entries
        (entries.filter (fun e =>
          !(mem_str e.uid ((to_push_from (cacheLookup entries) 0 events).map
              fun i => (events.getD i defaultEvent).uid)))) u =
        dict_last_entries entries u := by
      apply dict_last_entries_filter
      intro e he heu
      have hnm : mem_str u ((to_push_from (cacheLookup entries) 0 events).map
          fun i => (events.getD i defaultEvent).uid) = false := by
        cases hb : mem_str u ((to_push_from (cacheLookup entries) 0 events).map
            fun i => (events.getD i defaultEvent).uid) with
        | false => rfl
        | true =>
          exfalso
          obtain ⟨i0, hi0tp, hi0u⟩ := List.mem_map.mp ((mem_str_iff _ _).mp hb)
          exact hex ⟨i0, hi0tp, hi0u⟩
      rw [heu, hnm]
      rfl
    rw [hfc, revOf, cacheLookup, dict_last_entries_append, hdnone, hfilter]
    cases hdl2 : dict_last_entries entries u with
    | none =>
      have hcl : cacheLookup entries u = none := by simp [cacheLookup, hdl2]
      have hcond : ¬ ∃ e ∈ events, e.uid = u := by
        rintro ⟨e, he, heu⟩
        apply hex
        apply hexists_push.mpr
        exact ⟨e, he, heu, by simp [classify_event, heu, hcl]⟩
      simp [hcl, hcond]
    | some c =>
      have hcl : cacheLookup entries u = some (PartialCacheEntry.mk c.hash c.rev_id) := by
        simp [cacheLookup, hdl2]
      have hcond : ¬ ∃ e ∈ events, e.uid = u ∧
          hash_event e ≠ (PartialCacheEntry.mk c.hash c.rev_id).hash := by
        rintro ⟨e, he, heu, hne⟩
        apply hex
        apply hexists_push.mpr
        refine ⟨e, he, heu, ?_⟩
        have hp : ¬ (PartialCacheEntry.mk c.hash c.rev_id).hash = hash_event e :=
          fun habs => hne habs.symm
        simp [classify_event, heu, hcl, hp]
      simp [hcl, hcond]

/-! Remaining helper lemmas: index characterizations at start index zero,
and acceptance of persisted entries by `load_entry`/`load_entries`. -/

theorem mem_char_zero {n : Nat} {r : List Nat} {C : Nat → Prop}
    (hr : ∀ j, j ∈ r ↔ ∃ k, k < n ∧ j = 0 + k ∧ C k) :
    ∀ j, j ∈ r ↔ (j < n ∧ C j) := by
  intro j
  rw [hr j]
  constructor
  · rintro ⟨k, hk, hjk, hc⟩
    have hj : j = k := by omega
    subst hj
    exact ⟨hk, hc⟩
  · rintro ⟨hj, hc⟩
    exact ⟨j, hj, by omega, hc⟩

theorem load_entry_asdict (e : CacheEntry) :
    load_entry (.obj [("uid", .str e.uid), ("hash", .str e.hash),
      ("rev_id", .int e.rev_id)]) = .ok e := rfl

theorem load_entries_asdict (entries : List CacheEntry) :
    load_entries (entries.map fun e => JValue.obj
      [("uid", .str e.uid), ("hash", .str e.hash), ("rev_id", .int e.rev_id)]) =
      .ok entries := by
  induction entries with
  | nil => rfl
  | cons e rest ih => simp [load_entries, load_entry_asdict, ih]

theorem load_entry_ok_iff (item : JValue) :
    (∃ e, load_entry item = .ok e) ↔ accepted_item item = true := by
  cases h1 : (item.getKey "uid").bind as_py_str with
  | none => simp [load_entry, accepted_item, h1]
  | some s1 =>
    cases h2 : (item.getKey "hash").bind as_py_str with
    | none => simp [load_entry, accepted_item, h1, h2]
    | some s2 =>
      cases h3 : (item.getKey "rev_id").bind as_py_int with
      | none => simp [load_entry, accepted_item, h1, h2, h3]
      | some n => simp [load_entry, accepted_item, h1, h2, h3]

theorem load_entries_ok_iff (items : List JValue) :
    (∃ l, load_entries items = .ok l) ↔ items.all accepted_item = true := by
  induction items with
  | nil => simp [load_entries]
  | cons item rest ih =>
    cases he : load_entry item with
    | error err =>
      have hacc : ¬ accepted_item item = true := by
        intro hb
        obtain ⟨e, hee⟩ := (load_entry_ok_iff item).mpr hb
        rw [he] at hee
        exact Except.noConfusion hee
      simp [load_entries, he, List.all_cons, hacc]
    | ok e =>
      have hacc : accepted_item item = true := (load_entry_ok_iff item).mp ⟨e, he⟩
      cases hr : load_entries rest with
      | error err =>
        have hall : ¬ rest.all accepted_item = true := by
          intro hb
          obtain ⟨l, hl⟩ := ih.mpr hb
          rw [hr] at hl
          exact Except.noConfusion hl
        simp [load_entries, he, hr, List.all_cons, hacc, hall]
      | ok l =>
        have hall : rest.all accepted_item = true := ih.mp ⟨l, hr⟩
        simp [load_entries, he, hr, List.all_cons, hacc, hall]

/-! The claims. -/

/-- C9: for every sequence of cache entries, `write_cache` followed by
`load_cache` on the same path returns the written entries — in fact in the
same order, hence equal as a set. -/
theorem C9_write_load_roundtrip (entries : List CacheEntry) :
    load_cache (some (write_cache entries)) = .ok entries ∧
    ∃ loaded, load_cache (some (write_cache entries)) = .ok loaded ∧
      ∀ e, e ∈ loaded ↔ e ∈ entries := by
  have h : load_cache (some (write_cache entries)) = .ok entries :=
    load_entries_asdict entries
  exact ⟨h, entries, h, fun e => Iff.rfl⟩

/-- C6 counterexample: the persisted entry
`{"uid": "a", "hash": "h", "rev_id": true}` has its revision field of the
wrong type (a boolean where the expected shape demands an integer), yet
`load_cache` does not fail: Python's `isinstance(True, int)` holds because
`bool` is a subclass of `int`, so the entry loads with revision 1. -/
theorem C6_bool_revision_accepted :
    claim_shape (JValue.arr [JValue.obj [("uid", JValue.str "a"),
      ("hash", JValue.str "h"), ("rev_id", JValue.bool true)]]) = false ∧
    load_cache (some (JValue.arr [JValue.obj [("uid", JValue.str "a"),
      ("hash", JValue.str "h"), ("rev_id", JValue.bool true)]])) =
      .ok [CacheEntry.mk "a" "h" 1] := ⟨rfl, rfl⟩

/-- C6 (amended): `load_cache` on a missing file returns the empty
sequence, and on an existing document it succeeds exactly when the
document is a list of entries whose `uid` and `hash` fields are strings
and whose `rev_id` field passes Python's integer check — which accepts
booleans (loaded as 1/0) in addition to integers; any other shape
mismatch (missing field, other wrong type, non-list document) fails with
the `MalformedCacheError` failure rather than yielding an empty or
partial cache. -/
theorem C6_load_shape (v : JValue) :
    load_cache none = .ok ([] : List CacheEntry) ∧
    ((∃ l, load_cache (some v) = .ok l) ↔ accepted_shape v = true) := by
  refine ⟨rfl, ?_⟩
  cases v with
  | arr items => simpa [load_cache, accepted_shape] using load_entries_ok_iff items
  | null => simp [load_cache, accepted_shape]
  | bool b => simp [load_cache, accepted_shape]
  | int n => simp [load_cache, accepted_shape]
  | str s => simp [load_cache, accepted_shape]
  | obj fields => simp [load_cache, accepted_shape]

/-- C1 (code-bug exhibit): with prior cache `[(a, ha, 0), (b, hb, 0)]` and
an observed batch containing only a changed event for uid `b`, the
classification is `updated = [0]`, yet `update_cache` keeps the stale
entry for `b` and appends the fresh one, so uid `b` occurs twice in the
next generation.  The membership test `entry.uid not in
new_and_updated_uids` consumes the shared iterator: the check for entry
`a` exhausts it past the only element `b`, so the check for entry `b`
sees an empty iterator and wrongly carries the superseded entry over. -/
theorem C1_update_cache_duplicate_uid :
    update_cache [CacheEntry.mk "a" "ha" 0, CacheEntry.mk "b" "hb" 0]
        [Event.mk "b" "cb2"] =
      [CacheEntry.mk "a" "ha" 0, CacheEntry.mk "b" "hb" 0,
        CacheEntry.mk "b" (hash_event (Event.mk "b" "cb2")) 1] ∧
    (load_sort_events [CacheEntry.mk "a" "ha" 0, CacheEntry.mk "b" "hb" 0]
        [Event.mk "b" "cb2"]).updated = [0] ∧
    ((update_cache [CacheEntry.mk "a" "ha" 0, CacheEntry.mk "b" "hb" 0]
        [Event.mk "b" "cb2"]).map CacheEntry.uid).count "b" = 2 := by
  refine ⟨rfl, rfl, rfl⟩

/-- C5 (code-bug exhibit): `fetch_push_events` acquires the cache lock and
has no `try`/`finally`, so when the observation fails — and likewise when
the cache load fails, here on a persisted non-list document — the cycle
raises with the lock still held; the persisted cache is untouched, but
the mutual-exclusion lock is not released, contrary to the claim. -/
theorem C5_failed_cycle_leaves_lock_held (st : CycleState) (events : List Event) :
    (fetch_push_events_run st ObsResult.failure).1.lockHeld = true ∧
    (fetch_push_events_run st ObsResult.failure).1.cacheFile = st.cacheFile ∧
    (fetch_push_events_run st ObsResult.failure).2 = CycleOutcome.raised ∧
    (fetch_push_events_run (CycleState.mk false (some (JValue.int 0)))
        (ObsResult.ok events)).1.lockHeld = true ∧
    (fetch_push_events_run (CycleState.mk false (some (JValue.int 0)))
        (ObsResult.ok events)).1.cacheFile = some (JValue.int 0) ∧
    (fetch_push_events_run (CycleState.mk false (some (JValue.int 0)))
        (ObsResult.ok events)).2 = CycleOutcome.raised :=
  ⟨rfl, rfl, rfl, rfl, rfl, rfl⟩

/-- C10: when the loaded cache holds several entries for one uid and `c`
is the last of them, both lookup tables resolve the uid to `c`: the
classification of an observed event with that uid compares against
`c.hash`, and the revision assigned on update is `c.rev_id + 1`. -/
theorem C10_last_duplicate_entry_wins (l1 l2 : List CacheEntry) (c : CacheEntry)
    (ev : Event) (huid : ev.uid = c.uid) (hl2 : ∀ d ∈ l2, d.uid ≠ c.uid) :
    cacheLookup (l1 ++ c :: l2) ev.uid = some (PartialCacheEntry.mk c.hash c.rev_id) ∧
    classify_event (cacheLookup (l1 ++ c :: l2)) ev =
      (if c.hash = hash_event ev then EventClass.isUnchanged else EventClass.isUpdated) ∧
    revOf (update_cache (l1 ++ c :: l2) [ev]) ev.uid =
      some (if c.hash = hash_event ev then c.rev_id else c.rev_id + 1) := by
  have h2 : dict_last_entries l2 c.uid = none := by
    rw [dict_last_entries_eq_none_iff]
    exact hl2
  have hdl : dict_last_entries (l1 ++ c :: l2) ev.uid = some c := by
    rw [huid, dict_last_entries_append]
    simp [dict_last_entries, h2]
  have hcl : cacheLookup (l1 ++ c :: l2) ev.uid =
      some (PartialCacheEntry.mk c.hash c.rev_id) := by
    simp [cacheLookup, hdl]
  refine ⟨hcl, ?_, ?_⟩
  · simp [classify_event, hcl]
  · rw [update_cache_single_rev]
    rw [hcl]
    by_cases hh : c.hash = hash_event ev
    · have hne : ¬ hash_event ev ≠ c.hash := fun habs => habs hh.symm
      simp [hh, hne]
    · have hne : hash_event ev ≠ c.hash := fun habs => hh habs.symm
      simp [hh, hne]

/-- C10 witness: cache `[(a, h1, 0), (a, h2, 5)]`, observed event for uid
`a` with a third hash — classification uses the later entry, and the
update assigns revision 6. -/
theorem C10_witness :
    revOf (update_cache [CacheEntry.mk "a" "h1" 0, CacheEntry.mk "a" "h2" 5]
        [Event.mk "a" "z"]) "a" = some 6 := by
  have h := (C10_last_duplicate_entry_wins [CacheEntry.mk "a" "h1" 0] []
      (CacheEntry.mk "a" "h2" 5) (Event.mk "a" "z") rfl (by simp)).2.2
  rw [if_neg (by decide)] at h
  simpa using h

/-- C7: classification partitions the indices of the observed batch: an
index is `new` exactly when no cache entry carries its uid, `updated`
exactly when the uid resolves to an entry with a different fingerprint,
`unchanged` exactly when it resolves to an entry with the identical
fingerprint; the three sets are pairwise disjoint and their sizes sum to
the batch size. -/
theorem C7_classification_partition (entries : List CacheEntry) (events : List Event) :
    (∀ j, j ∈ (load_sort_events entries events).new ↔
        (j < events.length ∧
          ∀ en ∈ entries, en.uid ≠ (events.getD j defaultEvent).uid)) ∧
    (∀ j, j ∈ (load_sort_events entries events).updated ↔
        (j < events.length ∧
          ∃ p, cacheLookup entries (events.getD j defaultEvent).uid = some p ∧
            p.hash ≠ hash_event (events.getD j defaultEvent))) ∧
    (∀ j, j ∈ (load_sort_events entries events).unchanged ↔
        (j < events.length ∧
          ∃ p, cacheLookup entries (events.getD j defaultEvent).uid = some p ∧
            p.hash = hash_event (events.getD j defaultEvent))) ∧
    (∀ j, ¬ (j ∈ (load_sort_events entries events).new ∧
            j ∈ (load_sort_events entries events).updated) ∧
        ¬ (j ∈ (load_sort_events entries events).new ∧
            j ∈ (load_sort_events entries events).unchanged) ∧
        ¬ (j ∈ (load_sort_events entries events).updated ∧
            j ∈ (load_sort_events entries events).unchanged)) ∧
    (load_sort_events entries events).new.length +
      (load_sort_events entries events).updated.length +
      (load_sort_events entries events).unchanged.length = events.length := by
  have hN : ∀ j, j ∈ (load_sort_events entries events).new ↔
      (j < events.length ∧
        classify_event (cacheLookup entries) (events.getD j defaultEvent) = .isNew) :=
    mem_char_zero fun j => (classify_from_mem (cacheLookup entries) events 0 j).1
  have hU : ∀ j, j ∈ (load_sort_events entries events).updated ↔
      (j < events.length ∧
        classify_event (cacheLookup entries) (events.getD j defaultEvent) = .isUpdated) :=
    mem_char_zero fun j => (classify_from_mem (cacheLookup entries) events 0 j).2.1
  have hC : ∀ j, j ∈ (load_sort_events entries events).unchanged ↔
      (j < events.length ∧
        classify_event (cacheLookup entries) (events.getD j defaultEvent) = .isUnchanged) :=
    mem_char_zero fun j => (classify_from_mem (cacheLookup entries) events 0 j).2.2
  refine ⟨?_, ?_, ?_, ?_, ?_⟩
  · intro j
    rw [hN j]
    constructor
    · rintro ⟨hj, hc⟩
      refine ⟨hj, ?_⟩
      rw [← cacheLookup_eq_none_iff]
      cases hlu : cacheLookup entries (events.getD j defaultEvent).uid with
      | none => rfl
      | some p =>
        exfalso
        simp only [classify_event, hlu] at hc
        split at hc <;> exact EventClass.noConfusion hc
    · rintro ⟨hj, hno⟩
      have hlu : cacheLookup entries (events.getD j defaultEvent).uid = none :=
        (cacheLookup_eq_none_iff entries _).mpr hno
      exact ⟨hj, by simp only [classify_event, hlu]⟩
  · intro j
    rw [hU j]
    constructor
    · rintro ⟨hj, hc⟩
      refine ⟨hj, ?_⟩
      cases hlu : cacheLookup entries (events.getD j defaultEvent).uid with
      | none =>
        exfalso
        simp only [classify_event, hlu] at hc
        exact EventClass.noConfusion hc
      | some p =>
        refine ⟨p, rfl, ?_⟩
        intro habs
        simp only [classify_event, hlu, if_pos habs] at hc
        exact EventClass.noConfusion hc
    · rintro ⟨hj, p, hlu, hne⟩
      exact ⟨hj, by simp only [classify_event, hlu, if_neg hne]⟩
  · intro j
    rw [hC j]
    constructor
    · rintro ⟨hj, hc⟩
      refine ⟨hj, ?_⟩
      cases hlu : cacheLookup entries (events.getD j defaultEvent).uid with
      | none =>
        exfalso
        simp only [classify_event, hlu] at hc
        exact EventClass.noConfusion hc
      | some p =>
        refine ⟨p, rfl, ?_⟩
        by_contra habs
        simp only [classify_event, hlu, if_neg habs] at hc
        exact EventClass.noConfusion hc
    · rintro ⟨hj, p, hlu, heq⟩
      exact ⟨hj, by simp only [classify_event, hlu, if_pos heq]⟩
  · intro j
    refine ⟨?_, ?_, ?_⟩
    · rintro ⟨h1, h2⟩
      obtain ⟨-, hc1⟩ := (hN j).mp h1
      obtain ⟨-, hc2⟩ := (hU j).mp h2
      rw [hc1] at hc2
      exact EventClass.noConfusion hc2
    · rintro ⟨h1, h2⟩
      obtain ⟨-, hc1⟩ := (hN j).mp h1
      obtain ⟨-, hc2⟩ := (hC j).mp h2
      rw [hc1] at hc2
      exact EventClass.noConfusion hc2
    · rintro ⟨h1, h2⟩
      obtain ⟨-, hc1⟩ := (hU j).mp h1
      obtain ⟨-, hc2⟩ := (hC j).mp h2
      rw [hc1] at hc2
      exact EventClass.noConfusion hc2
  · exact classify_from_lengths (cacheLookup entries) events 0

/-- C7 witness: a batch with an unknown uid against a one-entry cache —
index 0 is classified new via the characterization. -/
theorem C7_witness :
    0 ∈ (load_sort_events [CacheEntry.mk "a" "x" 0] [Event.mk "b" "c"]).new := by
  have h := (C7_classification_partition [CacheEntry.mk "a" "x" 0]
      [Event.mk "b" "c"]).1 0
  apply h.mpr
  refine ⟨by decide, ?_⟩
  intro en hen
  have : en = CacheEntry.mk "a" "x" 0 := by simpa using hen
  subst this
  decide

/-- C2 counterexample: with an empty cache, the single-event
reconciliation classifies the re-observed event as new — and then
disseminates nothing, because `_update_clients` pushes only when
`sort.updated` is non-empty (`duplicate = len(sort.updated) == 0`). -/
theorem C2_reconciled_new_event_not_pushed :
    (load_sort_events ([] : List CacheEntry) [Event.mk "a" "c"]).new = [0] ∧
    (update_clients_cycle [] (Event.mk "a" "c") [ClientSection.mk "n" "h" 1]
        (fun _ => ReceiverBehavior.status 200)).1 = [] := ⟨rfl, rfl⟩

/-- C2 (amended): on the full-batch path exactly the changed subset is
dispatched — an index is pushed iff it is classified new or updated, and
each pushed event goes to every configured receiver; on the single-event
reconciliation path the event is dispatched (to every receiver) only when
classified updated — an event classified new or unchanged is not
delivered. -/
theorem C2_changed_subset_dispatched (entries : List CacheEntry)
    (events : List Event) (clients : List ClientSection)
    (behavior : ClientSection → ReceiverBehavior) (event : Event) :
    (∀ i, i ∈ (fetch_push_cycle entries events clients behavior).1.map Prod.fst ↔
        (i ∈ (load_sort_events entries events).new ∨
          i ∈ (load_sort_events entries events).updated)) ∧
    ((fetch_push_cycle entries events clients behavior).1.map
        (fun pr => pr.2.map fun rq => rq.1.client) =
      (fetch_push_cycle entries events clients behavior).1.map fun _ => clients) ∧
    ((update_clients_cycle entries event clients behavior).1 =
      if (load_sort_events entries [event]).updated.length = 0 then []
      else push_to_clients_run event behavior clients) := by
  have hmap : (fetch_push_cycle entries events clients behavior).1.map Prod.fst =
      to_push_from (cacheLookup entries) 0 events := by
    simp only [fetch_push_cycle, List.map_map]
    have hid : (Prod.fst ∘ fun i =>
        (i, push_event_run (events.getD i defaultEvent)
          (resolve_rev (cacheLookup entries) (events.getD i defaultEvent))
          behavior clients)) = fun i => i := rfl
    rw [hid]
    simp
  have hT : ∀ j, j ∈ to_push_from (cacheLookup entries) 0 events ↔
      (j < events.length ∧
        classify_event (cacheLookup entries) (events.getD j defaultEvent) ≠ .isUnchanged) :=
    mem_char_zero fun j => to_push_from_mem (cacheLookup entries) events 0 j
  have hN : ∀ j, j ∈ (load_sort_events entries events).new ↔
      (j < events.length ∧
        classify_event (cacheLookup entries) (events.getD j defaultEvent) = .isNew) :=
    mem_char_zero fun j => (classify_from_mem (cacheLookup entries) events 0 j).1
  have hU : ∀ j, j ∈ (load_sort_events entries events).updated ↔
      (j < events.length ∧
        classify_event (cacheLookup entries) (events.getD j defaultEvent) = .isUpdated) :=
    mem_char_zero fun j => (classify_from_mem (cacheLookup entries) events 0 j).2.1
  refine ⟨?_, ?_, rfl⟩
  · intro i
    rw [hmap, hT i, hN i, hU i]
    constructor
    · rintro ⟨hi, hc⟩
      cases hcv : classify_event (cacheLookup entries) (events.getD i defaultEvent) with
      | isNew => exact Or.inl ⟨hi, rfl⟩
      | isUpdated => exact Or.inr ⟨hi, rfl⟩
      | isUnchanged => exact absurd hcv hc
    · rintro (⟨hi, hc⟩ | ⟨hi, hc⟩) <;>
        exact ⟨hi, by rw [hc]; simp⟩
  · simp [fetch_push_cycle, List.map_map, Function.comp, push_event_run_clients]

/-- C3 counterexample: an updated event on the reconciliation path is
delivered, but the body sent to the receiver is the bare event
serialization — it carries no `rev_id` field at all, because
`push_event_to_clients` (client.py) never adds one. -/
theorem C3_reconciliation_body_lacks_revision :
    ((update_clients_cycle [CacheEntry.mk "a" "old" 0] (Event.mk "a" "c")
        [ClientSection.mk "n" "h" 1] (fun _ => ReceiverBehavior.status 200)).1.map
      fun pr => pr.1.body) =
      [JValue.obj [("uid", JValue.str "a"), ("content", JValue.str "c")]] ∧
    (JValue.obj [("uid", JValue.str "a"), ("content", JValue.str "c")]).getKey
      "rev_id" = none := ⟨rfl, rfl⟩

/-- C3 (amended): on the periodic full-batch path every delivered body is
the event's serialization augmented with an integer `rev_id` field
holding the event's resolved revision; on the single-event reconciliation
path every delivered body is the bare serialization, with no revision
field. -/
theorem C3_notification_bodies (entries : List CacheEntry) (events : List Event)
    (clients : List ClientSection) (behavior : ClientSection → ReceiverBehavior)
    (e : Event) (rev : Int) (event : Event) :
    ((push_event_run e rev behavior clients).map fun pr => pr.1.body) =
      (clients.map fun _ => push_event_body e rev) ∧
    (push_event_body e rev).getKey "rev_id" = some (.int rev) ∧
    ((fetch_push_cycle entries events clients behavior).1.map
        fun pr => pr.2.map fun rq => rq.1.body) =
      ((to_push_from (cacheLookup entries) 0 events).map fun i =>
        clients.map fun _ => push_event_body (events.getD i defaultEvent)
          (resolve_rev (cacheLookup entries) (events.getD i defaultEvent))) ∧
    ((update_clients_cycle entries event clients behavior).1.map
        fun pr => pr.1.body) =
      (if (load_sort_events entries [event]).updated.length = 0 then []
       else clients.map fun _ => JValue.obj (event_to_dict event)) ∧
    (JValue.obj (event_to_dict event)).getKey "rev_id" = none := by
  refine ⟨push_event_run_bodies e rev behavior clients, rfl, ?_, ?_, rfl⟩
  · simp [fetch_push_cycle, List.map_map, Function.comp, push_event_run_bodies]
  · by_cases hdup : (load_sort_events entries [event]).updated.length = 0
    · simp [update_clients_cycle, hdup]
    · simp [update_clients_cycle, hdup, push_to_clients_run_bodies]

/-- C8: per-receiver outcomes never interrupt the fan-out or the cycle:
whatever each receiver does (connection failure, unexpected status,
success), every pushed event is attempted at every configured receiver
exactly once, and the cache generation written by the cycle is the same
as under any other receiver behavior. -/
theorem C8_receiver_failure_isolated (entries : List CacheEntry)
    (events : List Event) (clients : List ClientSection)
    (behavior behavior2 : ClientSection → ReceiverBehavior) :
    ((fetch_push_cycle entries events clients behavior).2 =
      fetch_cycle_next entries events) ∧
    ((fetch_push_cycle entries events clients behavior).2 =
      (fetch_push_cycle entries events clients behavior2).2) ∧
    ((fetch_push_cycle entries events clients behavior).1.map
        (fun pr => pr.2.map fun rq => rq.1.client) =
      (fetch_push_cycle entries events clients behavior).1.map fun _ => clients) ∧
    ((fetch_push_cycle entries events clients behavior).1.map
        (fun pr => pr.2.length) =
      (fetch_push_cycle entries events clients behavior).1.map
        fun _ => clients.length) := by
  refine ⟨rfl, rfl, ?_, ?_⟩
  · simp [fetch_push_cycle, List.map_map, Function.comp, push_event_run_clients]
  · have hlen : ∀ (ev : Event) (rv : Int),
        (push_event_run ev rv behavior clients).length = clients.length := by
      intro ev rv
      have h := congrArg List.length (push_event_run_clients ev rv behavior clients)
      simpa using h
    simp [fetch_push_cycle, List.map_map, Function.comp, hlen]

/-- C4: across any sequence of synchronization cycles (full-batch or
single-event) starting from the empty cache, the resolved revision of a
uid is 0 when the uid first appears, never decreases, and increases by
exactly 1 on each cycle whose batch holds an event with that uid whose
fingerprint differs from the cached one (and is unchanged otherwise). -/
theorem C4_revision_monotonicity (cycles : List Cycle) (c : Cycle) (u : String) :
    (revOf (run_cycles cycles) u = none →
      revOf (run_cycles (cycles ++ [c])) u = none ∨
        revOf (run_cycles (cycles ++ [c])) u = some 0) ∧
    (∀ p, cacheLookup (run_cycles cycles) u = some p →
      revOf (run_cycles (cycles ++ [c])) u =
        some (if ∃ e ∈ c.batch, e.uid = u ∧ hash_event e ≠ p.hash
              then p.rev_id + 1 else p.rev_id)) ∧
    (∀ k, revOf (run_cycles cycles) u = some k →
      ∃ m, revOf (run_cycles (cycles ++ [c])) u = some m ∧ k ≤ m) := by
  have hstep : run_cycles (cycles ++ [c]) = cycle_step (run_cycles cycles) c := by
    simp [run_cycles, List.foldl_append]
  have hrev : revOf (cycle_step (run_cycles cycles) c) u =
      match cacheLookup (run_cycles cycles) u with
      | none => if ∃ e ∈ c.batch, e.uid = u then some 0 else none
      | some p =>
        some (if ∃ e ∈ c.batch, e.uid = u ∧ hash_event e ≠ p.hash
              then p.rev_id + 1 else p.rev_id) := by
    cases c with
    | full events =>
      simpa [cycle_step, Cycle.batch] using
        fetch_cycle_rev (run_cycles cycles) events u
    | single event =>
      have h := update_cache_single_rev (run_cycles cycles) event u
      simp only [cycle_step, Cycle.batch]
      rw [h]
      cases hcl : cacheLookup (run_cycles cycles) u with
      | none => simp
      | some p => simp
  rw [hstep]
  refine ⟨?_, ?_, ?_⟩
  · intro hnone
    have hcln : cacheLookup (run_cycles cycles) u = none := by
      cases hcl : cacheLookup (run_cycles cycles) u with
      | none => rfl
      | some p =>
        exfalso
        simp only [revOf, hcl] at hnone
        exact Option.noConfusion hnone
    rw [hrev]
    simp only [hcln]
    by_cases hx : ∃ e ∈ c.batch, e.uid = u
    · right; simp [hx]
    · left; simp [hx]
  · intro p hp
    rw [hrev]
    simp only [hp]
  · intro k hk
    have hsome : ∃ p, cacheLookup (run_cycles cycles) u = some p ∧ p.rev_id = k := by
      cases hcl : cacheLookup (run_cycles cycles) u with
      | none =>
        exfalso
        simp only [revOf, hcl] at hk
        exact Option.noConfusion hk
      | some p =>
        simp only [revOf, hcl, Option.map_some'] at hk
        exact ⟨p, rfl, by injection hk⟩
    obtain ⟨p, hp, hpk⟩ := hsome
    rw [hrev]
    simp only [hp]
    by_cases hx : ∃ e ∈ c.batch, e.uid = u ∧ hash_event e ≠ p.hash
    · exact ⟨p.rev_id + 1, by simp [hx], by omega⟩
    · exact ⟨p.rev_id, by simp [hx], by omega⟩

/-- C4 witness: two full cycles on uid `a` with changed content — the
first appearance stores revision 0, the change increments it to 1. -/
theorem C4_witness :
    revOf (run_cycles [Cycle.full [Event.mk "a" "x"],
      Cycle.full [Event.mk "a" "y"]]) "a" = some 1 := by
  have h := (C4_revision_monotonicity [Cycle.full [Event.mk "a" "x"]]
      (Cycle.full [Event.mk "a" "y"]) "a").2.1
      (PartialCacheEntry.mk (hash_event (Event.mk "a" "x")) 0) (by decide)
  rw [if_pos ⟨Event.mk "a" "y", by simp [Cycle.batch], rfl, by decide⟩] at h
  simpa using h

end Bridge
